import Mathlib

/-!
Shallow embedding of the sqlite_parser repository (src/sqlite_parser.py and
src/sentinel.py): a read-only decoder for the SQLite database file format.

Modelling conventions:
* Byte streams are `List Nat` consumed from the front; `stream.read(n)` becomes
  `take`/`drop` with an explicit length check.
* Python exceptions become the `Err` type below; each constructor corresponds to
  one raise site (all the parser's own raises are `ValueError`s with distinct
  messages; `KeyError`, `StopIteration`, `TypeError`, `AssertionError` and
  `RecursionError` come from the runtime).
* Machine integers are `Nat`/`Int`; Python `//` and `%` on nonnegative ints are
  `Nat` division and modulus.
-/

namespace Sq

/-- One constructor per distinct failure site of the source.  The first group
are `ValueError` raises (with the message of the raise site noted); the second
group are exceptions raised by the Python runtime itself. -/
inductive Err where
  | varintEof          -- ValueError "unexpected end of varint input"
  | varintTooLong      -- ValueError "varint too long"
  | uintUnderread      -- ValueError "uint underread"
  | intUnderread       -- ValueError "int underread"
  | notADatabase       -- ValueError "not a database"
  | invalidPageSize    -- ValueError "invalid page size (...)"
  | pageUnderread      -- ValueError "page underread"
  | payloadUnderread   -- ValueError "payload underread"
  | unexpectedOverflow -- ValueError "unexpected last overflow page"
  | keyNotFound        -- ValueError "key not found"
  | unexpectedSerial   -- ValueError "unexpected" (serial types 10 and 11)
  | blobUnderread      -- ValueError "blob/str underread"
  | structError        -- struct.error: struct.unpack on a short buffer
  | keyError           -- KeyError from a dict lookup (table_roots[name])
  | stopIteration      -- StopIteration from next() on an exhausted generator
  | typeError          -- TypeError: call with missing required arguments
  | assertFailed       -- AssertionError from an assert statement
  | recursionLimit     -- RecursionError (modelled as fuel exhaustion)
  deriving DecidableEq, Repr

/-- Spec section 7 classifies the decoder's failures; these are the `ValueError`
sites the spec calls `FormatError` (structural invariant violations). -/
def Err.formatClass : Err → Bool
  | .notADatabase | .invalidPageSize | .unexpectedOverflow | .unexpectedSerial
  | .varintEof | .varintTooLong => true
  | _ => false

/-- The `ValueError` sites the spec calls `IOError` (short reads). -/
def Err.ioClass : Err → Bool
  | .uintUnderread | .intUnderread | .pageUnderread | .payloadUnderread
  | .blobUnderread => true
  | _ => false

/-- The `ValueError` site the spec calls `NotFoundError`. -/
def Err.notFoundClass : Err → Bool
  | .keyNotFound => true
  | _ => false

/-- `class TextEncoding(Enum)` from the source. -/
inductive TextEncoding where
  | utf8 | utf16le | utf16be
  deriving DecidableEq, Repr

/-- A decoded column value, as produced by `Database._parse_record`.  A float
(serial type 7) is kept as its 8-byte big-endian IEEE-754 bit pattern; a text
value keeps the file's configured encoding together with its raw bytes (the
character-level decoding performed by Python's `.decode` is not modelled). -/
inductive Value where
  | null
  | int (i : Int)
  | real (bits : Nat)
  | text (enc : TextEncoding) (bs : List Nat)
  | blob (bs : List Nat)
  deriving DecidableEq, Repr

/-- `class BTreePageType(Enum)` from the source. -/
inductive BTreePageType where
  | idxInterior | tblInterior | idxLeaf | tblLeaf
  deriving DecidableEq, Repr

/-! ### Primitive readers -/

/-- `int.from_bytes(data, "big")`. -/
def beUintList (bs : List Nat) : Nat :=
  bs.foldl (fun acc b => acc * 256 + b) 0

/-- `int.from_bytes(data, "big", signed=True)`. -/
def beSintList (bs : List Nat) : Int :=
  let u := beUintList bs
  if u < 2 ^ (8 * bs.length - 1) then (u : Int) else (u : Int) - 2 ^ (8 * bs.length)

/-- `parse_be_uint(stream, n)`: read exactly `n` bytes big-endian unsigned;
a short read raises ValueError "uint underread". -/
def parse_be_uint (n : Nat) (s : List Nat) : Except Err (Nat × List Nat) :=
  if s.length < n then .error .uintUnderread
  else .ok (beUintList (s.take n), s.drop n)

/-- `parse_be_int(stream, n)`: read exactly `n` bytes big-endian signed. -/
def parse_be_int (n : Nat) (s : List Nat) : Except Err (Int × List Nat) :=
  if s.length < n then .error .intUnderread
  else .ok (beSintList (s.take n), s.drop n)

/-- The loop body of `parse_varint`; `fuel` is the remaining iterations of
`for _ in range(9)`, `n` the accumulator.  `n = (n << 7) | (val & 0x7F)`;
the high bit of the byte decides whether to continue. -/
def parse_varint_aux : Nat → Nat → List Nat → Except Err (Nat × List Nat)
  | 0, _, _ => .error .varintTooLong
  | _ + 1, _, [] => .error .varintEof
  | fuel + 1, n, b :: rest =>
    let n2 := n * 128 + b % 128
    if b % 256 < 128 then .ok (n2, rest) else parse_varint_aux fuel n2 rest

/-- `parse_varint(stream)`: 7-bits-per-byte big-endian varint, at most 9 bytes
(this parser takes only 7 bits of the ninth byte as well, unlike stock SQLite;
we embed the code as written). -/
def parse_varint (s : List Nat) : Except Err (Nat × List Nat) :=
  parse_varint_aux 9 0 s

/-! ### File header: the page-size field (`DatabaseHeader.parse`, lines 87-91) -/

/-- `n.bit_count()` (number of 1 bits), with fuel `n` itself, which always
suffices because the argument at least halves each step. -/
def bit_count_aux : Nat → Nat → Nat
  | 0, _ => 0
  | fuel + 1, n => if n = 0 then 0 else n % 2 + bit_count_aux fuel (n / 2)

/-- Python's `int.bit_count()` for nonnegative ints. -/
def bit_count (n : Nat) : Nat := bit_count_aux n n

/-- The page-size step of `DatabaseHeader.parse`: read a 2-byte big-endian
unsigned field; raw value 1 is normalized to 65536; otherwise the value must be
a power of two (checked with `.bit_count() != 1`) in `[512, 32768]`. -/
def parsePageSize (s : List Nat) : Except Err (Nat × List Nat) :=
  match parse_be_uint 2 s with
  | .error e => .error e
  | .ok (ps, s2) =>
    if ps = 1 then .ok (65536, s2)
    else if ps < 512 || 32768 < ps || bit_count ps ≠ 1 then .error .invalidPageSize
    else .ok (ps, s2)

/-- Spec-side helper: the 2-byte big-endian encoding of a raw header field. -/
def be2Bytes (u : Nat) : List Nat := [u / 256, u % 256]

/-! ### Payload reconstructor (`Database._parse_payload`) -/

/-- The local-storage threshold `X`: `U - 35` for table-leaf pages, otherwise
`((U - 12) * 64 // 255) - 23`. -/
def payloadX (U : Nat) (pt : BTreePageType) : Nat :=
  if pt = .tblLeaf then U - 35 else (U - 12) * 64 / 255 - 23

/-- The minimum local payload `M = ((U - 12) * 32 // 255) - 23`. -/
def payloadM (U : Nat) : Nat := (U - 12) * 32 / 255 - 23

/-- The overflow loop: `while payload_len: length_to_read = min(U - 4, payload_len)`;
returns the list of chunk sizes read from successive overflow pages.  Fuel is
the remaining length itself, which suffices since every chunk is at least one
byte when `u4 ≥ 1`. -/
def overflowChunksAux (u4 : Nat) : Nat → Nat → List Nat
  | 0, _ => []
  | fuel + 1, rem =>
    if rem = 0 then [] else min u4 rem :: overflowChunksAux u4 fuel (rem - min u4 rem)

def overflowChunks (u4 rem : Nat) : List Nat := overflowChunksAux u4 rem rem

/-- The byte-count plan of `_parse_payload`: how many payload bytes are read
from the b-tree page itself, and the sizes of the chunks read from successive
overflow pages.  `U` is the usable page size `page_size - rsvd_per_page`,
`P` the declared payload length. -/
def payloadPlan (U P : Nat) (pt : BTreePageType) : Nat × List Nat :=
  let X := payloadX U pt
  if P ≤ X then (P, [])
  else
    let M := payloadM U
    let K := M + (P - M) % (U - 4)
    let localN := if K ≤ X then K else M
    (localN, overflowChunks (U - 4) (P - localN))

/-! ### Record decoder (`Database._parse_record`) -/

/-- `TYPE_LENGTHS = [0, 1, 2, 3, 4, 6, 8, 8, 0, 0]` from the source. -/
def TYPE_LENGTHS : List Nat := [0, 1, 2, 3, 4, 6, 8, 8, 0, 0]

/-- Decoding of one serial-typed value: the body of the `for serial_type in
serial_types` loop of `_parse_record`.  For serial type 7 Python calls
`struct.unpack(">d", stream.read(8))`, which raises on a short read; the float
value is kept as its 8-byte bit pattern. -/
def serialValue (enc : TextEncoding) (t : Nat) (s : List Nat) :
    Except Err (Value × List Nat) :=
  if t = 0 then .ok (.null, s)
  else if t < 7 then
    match parse_be_int (TYPE_LENGTHS.getD t 0) s with
    | .error e => .error e
    | .ok (i, s2) => .ok (.int i, s2)
  else if t = 7 then
    if s.length < 8 then .error .structError
    else .ok (.real (beUintList (s.take 8)), s.drop 8)
  else if t = 8 then .ok (.int 0, s)
  else if t = 9 then .ok (.int 1, s)
  else if t = 10 ∨ t = 11 then .error .unexpectedSerial
  else
    let readLen := (t - 12) / 2
    let isStr := (t - 12) % 2
    if s.length < readLen then .error .blobUnderread
    else if isStr = 1 then .ok (.text enc (s.take readLen), s.drop readLen)
    else .ok (.blob (s.take readLen), s.drop readLen)

/-- The value loop of `_parse_record`: decode the serial types in header
order. -/
def parseValues (enc : TextEncoding) : List Nat → List Nat →
    Except Err (List Value × List Nat)
  | [], s => .ok ([], s)
  | t :: ts, s =>
    match serialValue enc t s with
    | .error e => .error e
    | .ok (v, s2) =>
      match parseValues enc ts s2 with
      | .error e => .error e
      | .ok (vs, s3) => .ok (v :: vs, s3)

/-- The header loop of `_parse_record`: `while stream.tell() < (start_offset +
header_len): serial_types.append(parse_varint(stream))`.  `c` is the number of
bytes consumed since the start of the record.  `fuel` models the loop counter;
`hlen - c` bytes remain in the header and every varint consumes at least one
byte, so fuel `hlen` always suffices (with exhausted fuel the remaining header
bytes could only be an already-overlong varint, reported as such). -/
def parseSerialTypes (hlen : Nat) : Nat → Nat → List Nat →
    Except Err (List Nat × List Nat)
  | 0, _, _ => .error .varintTooLong
  | fuel + 1, c, s =>
    if c < hlen then
      match parse_varint s with
      | .error e => .error e
      | .ok (t, s2) =>
        match parseSerialTypes hlen fuel (c + (s.length - s2.length)) s2 with
        | .error e => .error e
        | .ok (ts, s3) => .ok (t :: ts, s3)
    else .ok ([], s)

/-- `Database._parse_record`: varint header length, varint serial types
spanning the header, then the described values in order. -/
def parse_record (enc : TextEncoding) (payload : List Nat) :
    Except Err (List Value × List Nat) :=
  match parse_varint payload with
  | .error e => .error e
  | .ok (hlen, s1) =>
    match parseSerialTypes hlen hlen (payload.length - s1.length) s1 with
    | .error e => .error e
    | .ok (ts, s2) => parseValues enc ts s2

/-! ### Sentinels (src/sentinel.py) and Python comparison dispatch

`MIN_SENTINEL` and `MAX_SENTINEL` are objects that the scanner compares against
decoded keys; a bound is therefore either a sentinel or a real key.  Python
evaluates `a OP b` by first trying `type(a).__OP__(a, b)` and, when that
returns `NotImplemented` (which the key types' comparisons do for foreign
operands), the reflected `type(b).__ROP__(b, a)`.  The functions `blt`
(for `<`), `bgt` (`>`), `ble` (`<=`), `bge` (`>=`) and `beq` (`==`) below
spell out that dispatch for each shape of operands; comments name the method
that produces the result. -/
inductive BKey (K : Type) where
  | minS
  | key (k : K)
  | maxS
  deriving DecidableEq

variable {K V : Type} [LinearOrder K]

/-- `isinstance(b, MinSentinel)`. -/
def isMin : BKey K → Bool
  | .minS => true
  | _ => false

/-- `isinstance(b, MaxSentinel)`. -/
def isMax : BKey K → Bool
  | .maxS => true
  | _ => false

/-- Python `a < b` over sentinels and keys. -/
def blt : BKey K → BKey K → Bool
  | .minS, b => !isMin b            -- MinSentinel.__lt__
  | .maxS, _ => false               -- MaxSentinel.__lt__
  | .key x, .key y => decide (x < y)
  | .key _, .minS => false          -- reflected MinSentinel.__gt__
  | .key _, .maxS => true           -- reflected MaxSentinel.__gt__ (arg not a MaxSentinel)

/-- Python `a > b` over sentinels and keys. -/
def bgt : BKey K → BKey K → Bool
  | .minS, _ => false               -- MinSentinel.__gt__
  | .maxS, b => !isMax b            -- MaxSentinel.__gt__
  | .key x, .key y => decide (y < x)
  | .key _, .minS => true           -- reflected MinSentinel.__lt__ (arg not a MinSentinel)
  | .key _, .maxS => false          -- reflected MaxSentinel.__lt__

/-- Python `a <= b` over sentinels and keys. -/
def ble : BKey K → BKey K → Bool
  | .minS, _ => true                -- MinSentinel.__le__
  | .maxS, b => isMax b             -- MaxSentinel.__le__
  | .key x, .key y => decide (x ≤ y)
  | .key _, .minS => false          -- reflected MinSentinel.__ge__ (arg not a MinSentinel)
  | .key _, .maxS => true           -- reflected MaxSentinel.__ge__

/-- Python `a >= b` over sentinels and keys. -/
def bge : BKey K → BKey K → Bool
  | .minS, b => isMin b             -- MinSentinel.__ge__
  | .maxS, _ => true                -- MaxSentinel.__ge__
  | .key x, .key y => decide (y ≤ x)
  | .key _, .minS => true           -- reflected MinSentinel.__le__
  | .key _, .maxS => false          -- reflected MaxSentinel.__le__ (arg not a MaxSentinel)

/-- Python `a == b` over sentinels and keys. -/
def beq : BKey K → BKey K → Bool
  | .minS, b => isMin b             -- MinSentinel.__eq__
  | .maxS, b => isMax b             -- MaxSentinel.__eq__
  | .key x, .key y => decide (x = y)
  | .key _, .minS => false          -- reflected MinSentinel.__eq__
  | .key _, .maxS => false          -- reflected MaxSentinel.__eq__

/-- The intended mathematical strict order on bounds (spec section 3: two
special values comparing below and above every real key), written
independently of the Python dispatch. -/
def bkBelow : BKey K → BKey K → Bool
  | _, .minS => false
  | .minS, _ => true
  | .maxS, _ => false
  | .key _, .maxS => true
  | .key a, .key b => decide (a < b)

theorem blt_eq_bkBelow (a b : BKey K) : blt a b = bkBelow a b := by
  cases a <;> cases b <;> simp [blt, bkBelow, isMin]

theorem bgt_eq_bkBelow (a b : BKey K) : bgt a b = bkBelow b a := by
  cases a <;> cases b <;> simp [bgt, bkBelow, isMax]

theorem ble_eq_not_bkBelow (a b : BKey K) : ble a b = !bkBelow b a := by
  cases a <;> cases b <;> simp [ble, bkBelow, isMax]
  rw [← decide_not]
  exact decide_eq_decide.mpr not_lt.symm

theorem bge_eq_not_bkBelow (a b : BKey K) : bge a b = !bkBelow a b := by
  cases a <;> cases b <;> simp [bge, bkBelow, isMin]
  rw [← decide_not]
  exact decide_eq_decide.mpr not_lt.symm

theorem beq_eq_decide_eq (a b : BKey K) : beq a b = decide (a = b) := by
  cases a <;> cases b <;> simp [beq, isMin, isMax]

theorem bkBelow_trans {a b c : BKey K} (h1 : bkBelow a b = true)
    (h2 : bkBelow b c = true) : bkBelow a c = true := by
  cases a <;> cases b <;> cases c <;> simp_all [bkBelow]
  exact lt_trans h1 h2

theorem bkBelow_asymm {a b : BKey K} (h : bkBelow a b = true) :
    bkBelow b a = false := by
  cases a <;> cases b <;> simp_all [bkBelow]
  exact le_of_lt h

theorem bkBelow_total_eq {a b : BKey K} (h1 : bkBelow a b = false)
    (h2 : bkBelow b a = false) : a = b := by
  cases a <;> cases b <;> simp_all [bkBelow]
  exact le_antisymm h2 h1

theorem bkBelow_key_key {x y : K} : bkBelow (.key x) (.key y) = decide (x < y) := rfl

/-! ### B-tree pages and the range scanner (`Database._scan_btree_range`)

The scanner is embedded over an abstract page store `Nat → Option (Page K V)`:
a page is its parsed header variant together with its decoded cells in stored
(cell-pointer) order.  Cell decoding — seeking to the cell offset, reading the
child pointer / varints, reassembling the payload and splitting the record into
the first `num_key_cols` values (the key) and the rest (the value) — is
abstracted into the cell lists: keys live in an arbitrary linearly ordered
type `K` and values in `V`.  A table-interior cell stores the 4-byte left-child
pointer the code reads, together with the cell's rowid key, which the code
never reads (it is carried only so that file validity can be stated).
`store idx = none` stands for a page that cannot be fetched. -/
inductive Page (K V : Type) where
  | tblInterior (cells : List (Nat × K)) (rightPtr : Nat)
  | tblLeaf (cells : List (K × V))
  | idxInterior (cells : List (Nat × K × V)) (rightPtr : Nat)
  | idxLeaf (cells : List (K × V))

/-- The chained comparison `minkey <= key < maxkey` of the index-leaf loop. -/
def windowB (minkey maxkey : BKey K) (k : K) : Bool :=
  ble minkey (.key k) && blt (.key k) maxkey

/-- A scan produces the list of yielded `(key, value)` pairs together with how
the generator finished: `none` when it ran to completion (including the early
`return` of the index-interior case), `some e` when it raised `e` after the
listed pairs. -/
abbrev ScanResult (K V : Type) := List (K × V) × Option Err

/-- The table-interior cell loop (lines 337-343): for every cell, read the
left-child pointer and recurse; the cell's key is not read.  After the loop the
code executes `yield from self._scan_btree_range(hdr.right_ptr)` — a call that
omits the three required positional arguments `num_key_cols`, `minkey`,
`maxkey`, so Python raises `TypeError` at that point instead of recursing into
the rightmost child. -/
def scanTblCellsF (child : Nat → ScanResult K V) : List (Nat × K) → ScanResult K V
  | [] => ([], some .typeError)
  | (lc, _) :: rest =>
    match child lc with
    | (its, some e) => (its, some e)
    | (its, none) =>
      let more := scanTblCellsF child rest
      (its ++ more.1, more.2)

/-- The index-interior cell loop (lines 357-379).  In cell order: skip the
cell when `key < minkey`; recurse into the left child when `key > minkey`
(errors propagate after the child's yields); return — ending this generator
without touching the remaining cells or the right pointer — when
`key >= maxkey`; otherwise yield `(key, value)` and continue.  When the cells
are exhausted, recurse into the rightmost child (`onRight`). -/
def scanIdxCellsF (child : Nat → ScanResult K V) (minkey maxkey : BKey K)
    (onRight : ScanResult K V) : List (Nat × K × V) → ScanResult K V
  | [] => onRight
  | (lc, k, v) :: rest =>
    if blt (.key k) minkey then scanIdxCellsF child minkey maxkey onRight rest
    else
      let pre := if bgt (.key k) minkey then child lc else ([], none)
      match pre with
      | (its, some e) => (its, some e)
      | (its, none) =>
        if bge (.key k) maxkey then (its, none)
        else
          let more := scanIdxCellsF child minkey maxkey onRight rest
          (its ++ (k, v) :: more.1, more.2)

/-- `Database._scan_btree_range(idx, num_key_cols, minkey, maxkey)`.  `fuel`
bounds the recursion depth (Python's limit surfaces as `RecursionError`); the
`assert num_key_cols == 0` / `assert num_key_cols > 0` statements raise
`AssertionError` when violated. -/
def scanRange (store : Nat → Option (Page K V)) :
    Nat → Nat → Nat → BKey K → BKey K → ScanResult K V
  | 0, _, _, _, _ => ([], some .recursionLimit)
  | fuel + 1, idx, nkc, minkey, maxkey =>
    match store idx with
    | none => ([], some .pageUnderread)
    | some (.tblInterior cells _) =>
      if nkc = 0 then
        scanTblCellsF (fun lc => scanRange store fuel lc nkc minkey maxkey) cells
      else ([], some .assertFailed)
    | some (.tblLeaf cells) =>
      if nkc = 0 then (cells, none) else ([], some .assertFailed)
    | some (.idxInterior cells rp) =>
      if nkc = 0 then ([], some .assertFailed)
      else
        scanIdxCellsF (fun lc => scanRange store fuel lc nkc minkey maxkey)
          minkey maxkey (scanRange store fuel rp nkc minkey maxkey) cells
    | some (.idxLeaf cells) =>
      if nkc = 0 then ([], some .assertFailed)
      else (cells.filter fun c => windowB minkey maxkey c.1, none)

/-- The state of an open `Database` relevant to scanning: the
`table_roots` mapping and the page store (`get_btree_page`). -/
structure DB (K V : Type) where
  roots : String → Option Nat
  store : Nat → Option (Page K V)

/-- `Database.scan_table(name, num_key_cols)`: looks the name up in
`table_roots` — an absent name raises `KeyError` before any page is touched —
then scans the whole tree between the two sentinels.  The outer `Except`
separates that call-time failure from errors raised during iteration. -/
def scan_table (db : DB K V) (fuel : Nat) (name : String) (nkc : Nat) :
    Except Err (ScanResult K V) :=
  match db.roots name with
  | none => .error .keyError
  | some root => .ok (scanRange db.store fuel root nkc .minS .maxS)

/-- `Database.lookup_row(name, key)`: scan from `minkey = key` to
`MAX_SENTINEL` and take the first yielded pair with `next(...)`.  `next` on a
generator that finishes without yielding raises `StopIteration` (or the
generator's own error if it raised before the first yield); a first pair with
the wrong key raises ValueError "key not found".  `nkc` models
`len(key) if isinstance(key, tuple) else 0`: the arity of a key object is not
derivable from the abstract key type `K`, so it is passed alongside. -/
def lookup_row (db : DB K V) (fuel : Nat) (name : String) (key : K) (nkc : Nat) :
    Except Err V :=
  match db.roots name with
  | none => .error .keyError
  | some root =>
    match scanRange db.store fuel root nkc (.key key) .maxS with
    | ([], none) => .error .stopIteration
    | ([], some e) => .error e
    | ((k, row) :: _, _) => if k ≠ key then .error .keyNotFound else .ok row

/-! ### Validity of a stored B-tree and its in-order contents

These predicates are spec-side: they say what it means for the page store to
hold a well-formed ("valid database file") B-tree under a page index, with all
keys strictly inside an open bound window and, for table trees, each interior
cell's rowid separating its left subtree from the rest (SQLite stores the left
subtree's largest rowid, so the left subtree is bounded inclusively by it). -/

/-- Index-leaf cells: strictly ascending keys, strictly inside `(lo, hi)`. -/
def leafChainB : BKey K → BKey K → List (K × V) → Bool
  | _, _, [] => true
  | lo, hi, (k, _) :: rest =>
    bkBelow lo (.key k) && bkBelow (.key k) hi && leafChainB (.key k) hi rest

/-- Index-interior cells with threaded lower bound: every cell key strictly
between the running bound and `hi`, its left child valid strictly between the
bounds, and the rightmost child valid above the last key. -/
def validIdxCellsB (child : Nat → BKey K → BKey K → Bool) (hi : BKey K) :
    BKey K → List (Nat × K × V) → Nat → Bool
  | lo, [], rp => child rp lo hi
  | lo, (lc, k, _) :: rest, rp =>
    bkBelow lo (.key k) && bkBelow (.key k) hi && child lc lo (.key k) &&
      validIdxCellsB child hi (.key k) rest rp

/-- Validity of an index B-tree of height less than `h` rooted at `idx`. -/
def validIdx (store : Nat → Option (Page K V)) :
    Nat → Nat → BKey K → BKey K → Bool
  | 0, _, _, _ => false
  | h + 1, idx, lo, hi =>
    match store idx with
    | some (.idxLeaf cells) => leafChainB lo hi cells
    | some (.idxInterior cells rp) =>
      validIdxCellsB (fun c => validIdx store h c) hi lo cells rp
    | _ => false

/-- Table-leaf cells: strictly ascending rowids in `(lo, hi]` (the upper bound
is inclusive because table-interior separators equal their subtree's largest
rowid). -/
def tblLeafChainB : BKey K → BKey K → List (K × V) → Bool
  | _, _, [] => true
  | lo, hi, (k, _) :: rest =>
    bkBelow lo (.key k) && !bkBelow hi (.key k) && tblLeafChainB (.key k) hi rest

/-- Table-interior cells: each cell's left child is valid on `(lo, sep]` for
the cell's stored rowid separator `sep`, and the rest continues above it. -/
def validTblCellsB (child : Nat → BKey K → BKey K → Bool) (hi : BKey K) :
    BKey K → List (Nat × K) → Nat → Bool
  | lo, [], rp => child rp lo hi
  | lo, (lc, sep) :: rest, rp =>
    bkBelow lo (.key sep) && !bkBelow hi (.key sep) && child lc lo (.key sep) &&
      validTblCellsB child hi (.key sep) rest rp

/-- Validity of a rowid-table B-tree of height less than `h` rooted at `idx`. -/
def validTbl (store : Nat → Option (Page K V)) :
    Nat → Nat → BKey K → BKey K → Bool
  | 0, _, _, _ => false
  | h + 1, idx, lo, hi =>
    match store idx with
    | some (.tblLeaf cells) => tblLeafChainB lo hi cells
    | some (.tblInterior cells rp) =>
      validTblCellsB (fun c => validTbl store h c) hi lo cells rp
    | _ => false

/-- The in-order contents below an index-interior page's cells. -/
def inorderIdxCellsF (child : Nat → List (K × V)) :
    List (Nat × K × V) → Nat → List (K × V)
  | [], rp => child rp
  | (lc, k, v) :: rest, rp => child lc ++ (k, v) :: inorderIdxCellsF child rest rp

/-- The in-order `(key, value)` contents of an index B-tree. -/
def inorderIdx (store : Nat → Option (Page K V)) : Nat → Nat → List (K × V)
  | 0, _ => []
  | h + 1, idx =>
    match store idx with
    | some (.idxLeaf cells) => cells
    | some (.idxInterior cells rp) =>
      inorderIdxCellsF (fun c => inorderIdx store h c) cells rp
    | _ => []

/-! ### Order lemmas for `bkBelow` -/

theorem bkBelow_irrefl (a : BKey K) : bkBelow a a = false := by
  cases a <;> simp [bkBelow]

theorem bkBelow_key_iff {x y : K} : bkBelow (.key x) (.key y) = true ↔ x < y := by
  simp [bkBelow]

theorem bkBelow_key_false_iff {x y : K} :
    bkBelow (.key x) (.key y) = false ↔ y ≤ x := by
  simp [bkBelow, not_lt]

/-- `a ≤ b → b < c → a < c` phrased on the boolean order. -/
theorem bkBelow_of_nlt_of_lt {x y z : BKey K} (h1 : bkBelow y x = false)
    (h2 : bkBelow y z = true) : bkBelow x z = true := by
  rcases h3 : bkBelow x y with _ | _
  · exact bkBelow_total_eq h3 h1 ▸ h2
  · exact bkBelow_trans h3 h2

/-- `a < b → b ≤ c → a < c` phrased on the boolean order. -/
theorem bkBelow_of_lt_of_nlt {x y z : BKey K} (h1 : bkBelow x y = true)
    (h2 : bkBelow z y = false) : bkBelow x z = true := by
  rcases h3 : bkBelow y z with _ | _
  · exact (bkBelow_total_eq h3 h2).symm ▸ h1
  · exact bkBelow_trans h1 h3

/-- Transitivity of `≤` phrased on the boolean order. -/
theorem bkBelow_false_trans {a b c : BKey K} (h1 : bkBelow b a = false)
    (h2 : bkBelow c b = false) : bkBelow c a = false := by
  rcases h3 : bkBelow c a with _ | _
  · rfl
  · exact absurd (bkBelow_of_lt_of_nlt h3 h1) (by simp [h2])

theorem windowB_eq (mn mx : BKey K) (k : K) :
    windowB mn mx k = (!bkBelow (.key k) mn && bkBelow (.key k) mx) := by
  simp [windowB, ble_eq_not_bkBelow, blt_eq_bkBelow]

theorem windowB_minS_maxS (k : K) : windowB (K := K) .minS .maxS k = true := rfl

/-! ### Bounds and sortedness of valid trees -/

/-- Contents of a valid index leaf: keys strictly inside the window and
strictly ascending. -/
theorem leafChainB_props :
    ∀ (cells : List (K × V)) (lo hi : BKey K), leafChainB lo hi cells = true →
      (∀ p ∈ cells, bkBelow lo (.key p.1) = true ∧ bkBelow (.key p.1) hi = true) ∧
      cells.Pairwise (fun p q => p.1 < q.1)
  | [], _, _, _ => ⟨by simp, .nil⟩
  | (k, v) :: rest, lo, hi, hc => by
    simp only [leafChainB, Bool.and_eq_true] at hc
    obtain ⟨⟨h1, h2⟩, h3⟩ := hc
    obtain ⟨hb, hp⟩ := leafChainB_props rest (.key k) hi h3
    constructor
    · intro p hp'
      rcases List.mem_cons.mp hp' with hp1 | hp2
      · rw [hp1]; exact ⟨h1, h2⟩
      · exact ⟨bkBelow_trans h1 (hb p hp2).1, (hb p hp2).2⟩
    · exact List.Pairwise.cons
        (fun q hq => bkBelow_key_iff.mp (hb q hq).1) hp

/-- Bounds and sortedness of the in-order contents of the cells of a valid
index-interior page, given the same for valid child pages of height `h`. -/
theorem idxCells_inorder_props (store : Nat → Option (Page K V)) (h : Nat)
    (IH : ∀ idx (lo hi : BKey K), validIdx store h idx lo hi = true →
      (∀ p ∈ inorderIdx store h idx,
        bkBelow lo (.key p.1) = true ∧ bkBelow (.key p.1) hi = true) ∧
      (inorderIdx store h idx).Pairwise (fun p q => p.1 < q.1)) :
    ∀ (cells : List (Nat × K × V)) (lo hi : BKey K) (rp : Nat),
      validIdxCellsB (fun c => validIdx store h c) hi lo cells rp = true →
      (∀ p ∈ inorderIdxCellsF (fun c => inorderIdx store h c) cells rp,
        bkBelow lo (.key p.1) = true ∧ bkBelow (.key p.1) hi = true) ∧
      (inorderIdxCellsF (fun c => inorderIdx store h c) cells rp).Pairwise
        (fun p q => p.1 < q.1)
  | [], lo, hi, rp, hv => IH rp lo hi hv
  | (lc, k, v) :: rest, lo, hi, rp, hv => by
    simp only [validIdxCellsB, Bool.and_eq_true] at hv
    obtain ⟨⟨⟨h1, h2⟩, h3⟩, h4⟩ := hv
    obtain ⟨cb, cp⟩ := IH lc lo (.key k) h3
    obtain ⟨rb, rp'⟩ := idxCells_inorder_props store h IH rest (.key k) hi rp h4
    simp only [inorderIdxCellsF]
    constructor
    · intro p hp
      rcases List.mem_append.mp hp with hp1 | hp2
      · exact ⟨(cb p hp1).1, bkBelow_trans (cb p hp1).2 h2⟩
      · rcases List.mem_cons.mp hp2 with hp3 | hp4
        · rw [hp3]; exact ⟨h1, h2⟩
        · exact ⟨bkBelow_trans h1 (rb p hp4).1, (rb p hp4).2⟩
    · rw [List.pairwise_append]
      refine ⟨cp, List.Pairwise.cons ?_ rp', ?_⟩
      · exact fun q hq => bkBelow_key_iff.mp (rb q hq).1
      · intro a ha b hb
        rcases List.mem_cons.mp hb with hb1 | hb2
        · rw [hb1]; exact bkBelow_key_iff.mp (cb a ha).2
        · exact bkBelow_key_iff.mp (bkBelow_trans (cb a ha).2 (rb b hb2).1)

/-- Bounds and sortedness of the in-order contents of a valid index tree. -/
theorem inorderIdx_props (store : Nat → Option (Page K V)) :
    ∀ (h : Nat) (idx : Nat) (lo hi : BKey K),
      validIdx store h idx lo hi = true →
      (∀ p ∈ inorderIdx store h idx,
        bkBelow lo (.key p.1) = true ∧ bkBelow (.key p.1) hi = true) ∧
      (inorderIdx store h idx).Pairwise (fun p q => p.1 < q.1)
  | 0, idx, lo, hi, hv => by simp [validIdx] at hv
  | h + 1, idx, lo, hi, hv => by
    rcases hs : store idx with _ | pg
    · rw [validIdx, hs] at hv; exact absurd hv (by simp)
    rcases pg with ⟨cells, rptr⟩ | ⟨cells⟩ | ⟨cells, rptr⟩ | ⟨cells⟩
    · rw [validIdx, hs] at hv; exact absurd hv (by simp)
    · rw [validIdx, hs] at hv; exact absurd hv (by simp)
    · rw [validIdx, hs] at hv
      rw [inorderIdx, hs]
      exact idxCells_inorder_props store h
        (fun i lo2 hi2 => inorderIdx_props store h i lo2 hi2) cells lo hi rptr hv
    · rw [validIdx, hs] at hv
      rw [inorderIdx, hs]
      exact leafChainB_props cells lo hi hv

/-! ### Unfolding helpers for the scanner -/

theorem scanRange_tblInterior {store : Nat → Option (Page K V)} {fuel idx : Nat}
    {cells : List (Nat × K)} {rptr : Nat} {mn mx : BKey K}
    (hs : store idx = some (.tblInterior cells rptr)) :
    scanRange store (fuel + 1) idx 0 mn mx
      = scanTblCellsF (fun lc => scanRange store fuel lc 0 mn mx) cells := by
  rw [scanRange, hs]
  rfl

theorem scanRange_tblLeaf {store : Nat → Option (Page K V)} {fuel idx : Nat}
    {cells : List (K × V)} {mn mx : BKey K}
    (hs : store idx = some (.tblLeaf cells)) :
    scanRange store (fuel + 1) idx 0 mn mx = (cells, none) := by
  rw [scanRange, hs]
  rfl

theorem scanRange_idxInterior {store : Nat → Option (Page K V)} {fuel idx nkc : Nat}
    {cells : List (Nat × K × V)} {rptr : Nat} {mn mx : BKey K}
    (hn : nkc ≠ 0) (hs : store idx = some (.idxInterior cells rptr)) :
    scanRange store (fuel + 1) idx nkc mn mx
      = scanIdxCellsF (fun lc => scanRange store fuel lc nkc mn mx) mn mx
          (scanRange store fuel rptr nkc mn mx) cells := by
  rw [scanRange, hs]
  exact if_neg hn

theorem scanRange_idxLeaf {store : Nat → Option (Page K V)} {fuel idx nkc : Nat}
    {cells : List (K × V)} {mn mx : BKey K}
    (hn : nkc ≠ 0) (hs : store idx = some (.idxLeaf cells)) :
    scanRange store (fuel + 1) idx nkc mn mx
      = (cells.filter fun c => windowB mn mx c.1, none) := by
  rw [scanRange, hs]
  exact if_neg hn

theorem inorderIdx_interior {store : Nat → Option (Page K V)} {h idx : Nat}
    {cells : List (Nat × K × V)} {rptr : Nat}
    (hs : store idx = some (.idxInterior cells rptr)) :
    inorderIdx store (h + 1) idx
      = inorderIdxCellsF (fun c => inorderIdx store h c) cells rptr := by
  rw [inorderIdx, hs]

theorem inorderIdx_leaf {store : Nat → Option (Page K V)} {h idx : Nat}
    {cells : List (K × V)} (hs : store idx = some (.idxLeaf cells)) :
    inorderIdx store (h + 1) idx = cells := by
  rw [inorderIdx, hs]

/-- A segment whose keys all sit below `minkey` contributes nothing to the
window. -/
theorem filter_win_nil_below {l : List (K × V)} {mn mx : BKey K}
    (hb : ∀ p ∈ l, bkBelow (.key p.1) mn = true) :
    l.filter (fun c => windowB mn mx c.1) = [] := by
  rw [List.filter_eq_nil_iff]
  intro p hp
  simp [windowB_eq, hb p hp]

/-- A segment whose keys all sit at or above `maxkey` contributes nothing to
the window. -/
theorem filter_win_nil_above {l : List (K × V)} {mn mx : BKey K}
    (hb : ∀ p ∈ l, bkBelow (.key p.1) mx = false) :
    l.filter (fun c => windowB mn mx c.1) = [] := by
  rw [List.filter_eq_nil_iff]
  intro p hp
  simp [windowB_eq, hb p hp]

/-! ### The bounded index scan emits exactly the in-window in-order entries -/

/-- Cell-loop version: over a valid index-interior cell sequence, the scan
loop emits exactly the in-window part of the in-order contents and finishes
without error. -/
theorem scanIdxCells_eq_filter (store : Nat → Option (Page K V)) (h nkc : Nat)
    (mn mx : BKey K)
    (IH : ∀ idx (lo hi : BKey K), validIdx store h idx lo hi = true →
      scanRange store h idx nkc mn mx
        = ((inorderIdx store h idx).filter (fun c => windowB mn mx c.1), none)) :
    ∀ (cells : List (Nat × K × V)) (lo hi : BKey K) (rp : Nat),
      validIdxCellsB (fun c => validIdx store h c) hi lo cells rp = true →
      scanIdxCellsF (fun lc => scanRange store h lc nkc mn mx) mn mx
          (scanRange store h rp nkc mn mx) cells
        = ((inorderIdxCellsF (fun c => inorderIdx store h c) cells rp).filter
            (fun c => windowB mn mx c.1), none)
  | [], lo, hi, rp, hv => IH rp lo hi hv
  | (lc, k, v) :: rest, lo, hi, rp, hv => by
    simp only [validIdxCellsB, Bool.and_eq_true] at hv
    obtain ⟨⟨⟨h1, h2⟩, h3⟩, h4⟩ := hv
    have childB := (inorderIdx_props store h lc lo (.key k) h3).1
    have restB := (idxCells_inorder_props store h
      (fun i lo2 hi2 => inorderIdx_props store h i lo2 hi2) rest (.key k) hi rp h4).1
    have hrest := scanIdxCells_eq_filter store h nkc mn mx IH rest (.key k) hi rp h4
    have hchild := IH lc lo (.key k) h3
    rw [scanIdxCellsF, inorderIdxCellsF, List.filter_append]
    rcases hA : bkBelow (.key k) mn with _ | _
    · -- the cell key is not below minkey
      rw [blt_eq_bkBelow, hA, if_neg (by simp)]
      rcases hB : bkBelow mn (.key k) with _ | _
      · -- key == minkey: no left recursion
        have heq := bkBelow_total_eq hA hB
        rw [bgt_eq_bkBelow, hB, if_neg (by simp)]
        have hchildNil : (inorderIdx store h lc).filter
            (fun c => windowB mn mx c.1) = [] :=
          filter_win_nil_below (fun p hp => by
            rw [← heq]; exact (childB p hp).2)
        rcases hC : bkBelow (.key k) mx with _ | _
        · -- key >= maxkey: stop without emitting
          rw [bge_eq_not_bkBelow, hC]
          have hrestNil : (inorderIdxCellsF (fun c => inorderIdx store h c)
              rest rp).filter (fun c => windowB mn mx c.1) = [] :=
            filter_win_nil_above (fun q hq => by
              rcases hq' : bkBelow (.key q.1) mx with _ | _
              · rfl
              · exact absurd (bkBelow_trans (restB q hq).1 hq') (by simp [hC]))
          rw [hchildNil, List.filter_cons_of_neg (by simp [windowB_eq, hC]),
            hrestNil]
          simp
        · -- key < maxkey: emit and continue
          rw [bge_eq_not_bkBelow, hC]
          rw [hrest, hchildNil,
            List.filter_cons_of_pos (by simp [windowB_eq, hC, ← heq, bkBelow_irrefl])]
          simp
      · -- key > minkey: recurse into the left child first
        rw [bgt_eq_bkBelow, hB, if_pos rfl]
        rw [hchild]
        rcases hC : bkBelow (.key k) mx with _ | _
        · -- key >= maxkey: stop after the left child
          rw [bge_eq_not_bkBelow, hC]
          have hrestNil : (inorderIdxCellsF (fun c => inorderIdx store h c)
              rest rp).filter (fun c => windowB mn mx c.1) = [] :=
            filter_win_nil_above (fun q hq => by
              rcases hq' : bkBelow (.key q.1) mx with _ | _
              · rfl
              · exact absurd (bkBelow_trans (restB q hq).1 hq') (by simp [hC]))
          rw [List.filter_cons_of_neg (by simp [windowB_eq, hC]), hrestNil]
          simp
        · -- key < maxkey: emit and continue
          rw [bge_eq_not_bkBelow, hC]
          rw [hrest, List.filter_cons_of_pos (by simp [windowB_eq, hC, hA])]
          simp
    · -- key < minkey: skip the cell entirely
      rw [blt_eq_bkBelow, hA, if_pos rfl]
      rw [hrest]
      have hchildNil : (inorderIdx store h lc).filter
          (fun c => windowB mn mx c.1) = [] :=
        filter_win_nil_below (fun p hp => bkBelow_trans (childB p hp).2 hA)
      rw [hchildNil, List.filter_cons_of_neg (by simp [windowB_eq, hA])]
      rfl

/-- Over a valid index tree, the bounded scan emits exactly the in-window
in-order entries and finishes without error. -/
theorem scanIdx_eq_filter (store : Nat → Option (Page K V)) (nkc : Nat)
    (hn : nkc ≠ 0) (mn mx : BKey K) :
    ∀ (h idx : Nat) (lo hi : BKey K), validIdx store h idx lo hi = true →
      scanRange store h idx nkc mn mx
        = ((inorderIdx store h idx).filter (fun c => windowB mn mx c.1), none)
  | 0, idx, lo, hi, hv => by simp [validIdx] at hv
  | h + 1, idx, lo, hi, hv => by
    rcases hs : store idx with _ | pg
    · rw [validIdx, hs] at hv; exact absurd hv (by simp)
    rcases pg with ⟨cells, rptr⟩ | ⟨cells⟩ | ⟨cells, rptr⟩ | ⟨cells⟩
    · rw [validIdx, hs] at hv; exact absurd hv (by simp)
    · rw [validIdx, hs] at hv; exact absurd hv (by simp)
    · rw [validIdx, hs] at hv
      rw [scanRange_idxInterior hn hs, inorderIdx_interior hs]
      exact scanIdxCells_eq_filter store h nkc mn mx
        (fun i lo2 hi2 => scanIdx_eq_filter store nkc hn mn mx h i lo2 hi2)
        cells lo hi rptr hv
    · rw [scanRange_idxLeaf hn hs, inorderIdx_leaf hs]

/-! ### Sortedness of the table-tree scan (despite its early `TypeError`) -/

/-- Contents of a valid table leaf: rowids strictly ascending in `(lo, hi]`. -/
theorem tblLeafChainB_props :
    ∀ (cells : List (K × V)) (lo hi : BKey K), tblLeafChainB lo hi cells = true →
      (∀ p ∈ cells, bkBelow lo (.key p.1) = true ∧ bkBelow hi (.key p.1) = false) ∧
      cells.Pairwise (fun p q => p.1 < q.1)
  | [], _, _, _ => ⟨by simp, .nil⟩
  | (k, v) :: rest, lo, hi, hc => by
    simp only [tblLeafChainB, Bool.and_eq_true, Bool.not_eq_true'] at hc
    obtain ⟨⟨h1, h2⟩, h3⟩ := hc
    obtain ⟨hb, hp⟩ := tblLeafChainB_props rest (.key k) hi h3
    refine ⟨?_, List.Pairwise.cons (fun q hq => bkBelow_key_iff.mp (hb q hq).1) hp⟩
    intro p hp'
    rcases List.mem_cons.mp hp' with hp1 | hp2
    · rw [hp1]; exact ⟨h1, h2⟩
    · exact ⟨bkBelow_trans h1 (hb p hp2).1, (hb p hp2).2⟩

/-- The table-interior cell loop: whatever prefix it manages to yield before
the missing-argument `TypeError` (or a child's error) is bounded and strictly
ascending. -/
theorem scanTblCells_props (store : Nat → Option (Page K V)) (h : Nat)
    (mn mx : BKey K)
    (HC : ∀ idx (lo hi : BKey K), validTbl store h idx lo hi = true →
      (∀ p ∈ (scanRange store h idx 0 mn mx).1,
        bkBelow lo (.key p.1) = true ∧ bkBelow hi (.key p.1) = false) ∧
      (scanRange store h idx 0 mn mx).1.Pairwise (fun p q => p.1 < q.1)) :
    ∀ (cells : List (Nat × K)) (lo hi : BKey K) (rp : Nat),
      validTblCellsB (fun c => validTbl store h c) hi lo cells rp = true →
      (∀ p ∈ (scanTblCellsF (fun lc => scanRange store h lc 0 mn mx) cells).1,
        bkBelow lo (.key p.1) = true ∧ bkBelow hi (.key p.1) = false) ∧
      (scanTblCellsF (fun lc => scanRange store h lc 0 mn mx) cells).1.Pairwise
        (fun p q => p.1 < q.1)
  | [], lo, hi, rp, _ => ⟨by simp [scanTblCellsF], by simp [scanTblCellsF]⟩
  | (lc, sep) :: rest, lo, hi, rp, hv => by
    simp only [validTblCellsB, Bool.and_eq_true, Bool.not_eq_true'] at hv
    obtain ⟨⟨⟨h1, h2⟩, h3⟩, h4⟩ := hv
    obtain ⟨cb, cp⟩ := HC lc lo (.key sep) h3
    obtain ⟨rb, rpw⟩ := scanTblCells_props store h mn mx HC rest (.key sep) hi rp h4
    rw [scanTblCellsF]
    rcases hc : scanRange store h lc 0 mn mx with ⟨its, tl⟩
    rw [hc] at cb cp
    rcases tl with _ | e
    · -- the child scan finished; the loop continues with the rest
      constructor
      · intro p hp
        rcases List.mem_append.mp hp with hp1 | hp2
        · exact ⟨(cb p hp1).1, bkBelow_false_trans (cb p hp1).2 h2⟩
        · exact ⟨bkBelow_trans h1 (rb p hp2).1, (rb p hp2).2⟩
      · rw [List.pairwise_append]
        refine ⟨cp, rpw, fun a ha b hb => ?_⟩
        exact lt_of_le_of_lt (bkBelow_key_false_iff.mp (cb a ha).2)
          (bkBelow_key_iff.mp (rb b hb).1)
    · -- the child scan raised; its prefix is all that is yielded
      exact ⟨fun p hp => ⟨(cb p hp).1, bkBelow_false_trans (cb p hp).2 h2⟩, cp⟩

/-- A table-tree scan yields a bounded, strictly ascending rowid sequence. -/
theorem scanTbl_props (store : Nat → Option (Page K V)) (mn mx : BKey K) :
    ∀ (h idx : Nat) (lo hi : BKey K), validTbl store h idx lo hi = true →
      (∀ p ∈ (scanRange store h idx 0 mn mx).1,
        bkBelow lo (.key p.1) = true ∧ bkBelow hi (.key p.1) = false) ∧
      (scanRange store h idx 0 mn mx).1.Pairwise (fun p q => p.1 < q.1)
  | 0, idx, lo, hi, hv => by simp [validTbl] at hv
  | h + 1, idx, lo, hi, hv => by
    rcases hs : store idx with _ | pg
    · rw [validTbl, hs] at hv; exact absurd hv (by simp)
    rcases pg with ⟨cells, rptr⟩ | ⟨cells⟩ | ⟨cells, rptr⟩ | ⟨cells⟩
    · rw [validTbl, hs] at hv
      rw [scanRange_tblInterior hs]
      exact scanTblCells_props store h mn mx
        (fun i lo2 hi2 => scanTbl_props store mn mx h i lo2 hi2)
        cells lo hi rptr hv
    · rw [validTbl, hs] at hv
      rw [scanRange_tblLeaf hs]
      exact tblLeafChainB_props cells lo hi hv
    · rw [validTbl, hs] at hv; exact absurd hv (by simp)
    · rw [validTbl, hs] at hv; exact absurd hv (by simp)

/-! ### Overflow-chunk arithmetic -/

theorem overflowChunksAux_zero (u4 : Nat) :
    ∀ fuel, overflowChunksAux u4 fuel 0 = []
  | 0 => rfl
  | _ + 1 => by simp [overflowChunksAux]

theorem overflowChunksAux_sum (u4 : Nat) (h4 : 1 ≤ u4) :
    ∀ fuel rem, rem ≤ fuel → (overflowChunksAux u4 fuel rem).sum = rem
  | 0, rem, h => by
    have h0 : rem = 0 := by omega
    subst h0; rfl
  | fuel + 1, rem, h => by
    by_cases h0 : rem = 0
    · subst h0; simp [overflowChunksAux]
    · rw [overflowChunksAux, if_neg h0, List.sum_cons,
        overflowChunksAux_sum u4 h4 fuel (rem - min u4 rem) (by omega)]
      omega

theorem overflowChunksAux_le (u4 : Nat) :
    ∀ fuel rem c, c ∈ overflowChunksAux u4 fuel rem → c ≤ u4
  | 0, rem, c, hc => absurd hc (by simp [overflowChunksAux])
  | fuel + 1, rem, c, hc => by
    by_cases h0 : rem = 0
    · subst h0; simp [overflowChunksAux] at hc
    · rw [overflowChunksAux, if_neg h0] at hc
      rcases List.mem_cons.mp hc with h1 | h2
      · subst h1; omega
      · exact overflowChunksAux_le u4 fuel _ c h2

theorem overflowChunks_single (u4 rem : Nat) (h1 : 1 ≤ rem) (h2 : rem ≤ u4) :
    overflowChunks u4 rem = [rem] := by
  unfold overflowChunks
  obtain ⟨m, rfl⟩ : ∃ m, rem = m + 1 := ⟨rem - 1, by omega⟩
  rw [overflowChunksAux, if_neg (by omega)]
  have hmin : min u4 (m + 1) = m + 1 := by omega
  rw [hmin]
  simp [overflowChunksAux_zero]

/-! ### `bit_count` is 1 exactly on powers of two -/

theorem bit_count_aux_zero : ∀ f, bit_count_aux f 0 = 0
  | 0 => rfl
  | _ + 1 => by simp [bit_count_aux]

theorem bit_count_aux_stable : ∀ (f1 f2 n : Nat), n ≤ f1 → n ≤ f2 →
    bit_count_aux f1 n = bit_count_aux f2 n
  | 0, f2, n, h1, _ => by
    have h0 : n = 0 := by omega
    subst h0
    rw [bit_count_aux_zero, bit_count_aux_zero]
  | f1 + 1, f2, 0, _, _ => by rw [bit_count_aux_zero, bit_count_aux_zero]
  | f1 + 1, 0, n + 1, _, h2 => by omega
  | f1 + 1, f2 + 1, n + 1, h1, h2 => by
    rw [bit_count_aux, bit_count_aux, if_neg (by omega), if_neg (by omega)]
    congr 1
    exact bit_count_aux_stable f1 f2 ((n + 1) / 2) (by omega) (by omega)

theorem bit_count_rec (n : Nat) (hn : n ≠ 0) :
    bit_count n = n % 2 + bit_count (n / 2) := by
  unfold bit_count
  obtain ⟨m, rfl⟩ : ∃ m, n = m + 1 := ⟨n - 1, by omega⟩
  rw [bit_count_aux, if_neg hn]
  congr 1
  exact bit_count_aux_stable m ((m + 1) / 2) ((m + 1) / 2) (by omega) (le_refl _)

theorem bit_count_pos : ∀ n, n ≠ 0 → bit_count n ≠ 0
  | n, hn => by
    rw [bit_count_rec n hn]
    by_cases hp : n % 2 = 1
    · omega
    · have hhalf : n / 2 ≠ 0 := by omega
      have := bit_count_pos (n / 2) hhalf
      omega
termination_by n => n
decreasing_by omega

theorem bit_count_eq_one : ∀ n, bit_count n = 1 → ∃ k, n = 2 ^ k
  | n, h => by
    by_cases hn : n = 0
    · subst hn
      exact absurd h (by decide)
    rw [bit_count_rec n hn] at h
    by_cases hp : n % 2 = 1
    · have h2 : bit_count (n / 2) = 0 := by omega
      have h3 : n / 2 = 0 := by
        by_contra hc
        exact bit_count_pos (n / 2) hc h2
      exact ⟨0, by omega⟩
    · have h2 : bit_count (n / 2) = 1 := by omega
      obtain ⟨k, hk⟩ := bit_count_eq_one (n / 2) h2
      exact ⟨k + 1, by rw [pow_succ]; omega⟩
termination_by n => n
decreasing_by omega

theorem bit_count_two_pow : ∀ k : Nat, bit_count (2 ^ k) = 1
  | 0 => rfl
  | k + 1 => by
    rw [bit_count_rec (2 ^ (k + 1)) (by positivity)]
    have h1 : 2 ^ (k + 1) % 2 = 0 := by rw [pow_succ]; omega
    have h2 : 2 ^ (k + 1) / 2 = 2 ^ k := by rw [pow_succ]; omega
    rw [h1, h2, bit_count_two_pow k]

/-! ### Head of a bounded scan over a sorted list -/

/-- In a strictly sorted list containing `(k, v)`, the `lookup_row` window
`[key, MAX)` filters to a list starting exactly at `(k, v)`. -/
theorem filter_from_key_head :
    ∀ (l : List (K × V)) (k : K) (v : V),
      l.Pairwise (fun p q => p.1 < q.1) → (k, v) ∈ l →
      ∃ t, l.filter (fun c => windowB (.key k) .maxS c.1) = (k, v) :: t
  | [], _, _, _, hm => absurd hm (by simp)
  | p :: rest, k, v, hp, hm => by
    rcases List.mem_cons.mp hm with h1 | h2
    · refine ⟨rest.filter (fun c => windowB (.key k) .maxS c.1), ?_⟩
      rw [← h1]
      exact List.filter_cons_of_pos (by
        simp [windowB_eq, bkBelow_irrefl, bkBelow])
    · have hlt : p.1 < k := (List.pairwise_cons.mp hp).1 (k, v) h2
      obtain ⟨t, ht⟩ :=
        filter_from_key_head rest k v (List.pairwise_cons.mp hp).2 h2
      exact ⟨t, by
        rw [List.filter_cons_of_neg (by simp [windowB_eq, bkBelow, hlt]), ht]⟩

/-! ### The index-interior rule as the claim words it -/

/-- The index-interior recursion rule exactly as the claim states it, written
with the mathematical bound order `bkBelow` instead of the Python operator
dispatch: process cells in stored order; skip the cell entirely when
`key < minkey`; recurse into the left child first when `key > minkey` (child
errors propagate after its yields); terminate the whole traversal without
emitting when `key >= maxkey`; otherwise emit `(key, value)`; after all cells,
recurse into the rightmost-child pointer with the same bounds. -/
def claimIdxInteriorScan (child : Nat → ScanResult K V) (minkey maxkey : BKey K)
    (rightScan : ScanResult K V) : List (Nat × K × V) → ScanResult K V
  | [] => rightScan
  | (lc, k, v) :: rest =>
    if bkBelow (.key k) minkey then
      claimIdxInteriorScan child minkey maxkey rightScan rest
    else if bkBelow minkey (.key k) then
      match child lc with
      | (its, some e) => (its, some e)
      | (its, none) =>
        if bkBelow (.key k) maxkey then
          let more := claimIdxInteriorScan child minkey maxkey rightScan rest
          (its ++ (k, v) :: more.1, more.2)
        else (its, none)
    else
      if bkBelow (.key k) maxkey then
        let more := claimIdxInteriorScan child minkey maxkey rightScan rest
        ((k, v) :: more.1, more.2)
      else ([], none)

theorem scanIdxCellsF_eq_claim (child : Nat → ScanResult K V)
    (minkey maxkey : BKey K) (rightScan : ScanResult K V) :
    ∀ cells, scanIdxCellsF child minkey maxkey rightScan cells
      = claimIdxInteriorScan child minkey maxkey rightScan cells
  | [] => rfl
  | (lc, k, v) :: rest => by
    have ih := scanIdxCellsF_eq_claim child minkey maxkey rightScan rest
    rw [scanIdxCellsF, claimIdxInteriorScan, blt_eq_bkBelow, bgt_eq_bkBelow,
      bge_eq_not_bkBelow]
    rcases hA : bkBelow (.key k) minkey with _ | _
    · rcases hB : bkBelow minkey (.key k) with _ | _
      · rcases hC : bkBelow (.key k) maxkey with _ | _
        · simp
        · simp [ih]
      · rcases hc : child lc with ⟨its, tl⟩
        rcases tl with _ | e
        · rcases hC : bkBelow (.key k) maxkey with _ | _
          · simp [hc]
          · simp [hc, ih]
        · simp [hc]
    · simp [ih]

/-! ### Concrete databases used to witness the claims -/

/-- A valid two-level rowid table: interior root (page 1) with one cell whose
left child is page 2 (rowid 1) and whose rightmost child is page 3 (rowid 2). -/
def tblStoreEx : Nat → Option (Page Nat Nat) := fun n =>
  if n = 1 then some (.tblInterior [(2, 1)] 3)
  else if n = 2 then some (.tblLeaf [(1, 10)])
  else if n = 3 then some (.tblLeaf [(2, 20)])
  else none

def tblDbEx : DB Nat Nat := ⟨fun n => if n = "t" then some 1 else none, tblStoreEx⟩

/-- A valid two-level one-column index: interior root (page 1) holding key 5,
left child page 2 (key 3), rightmost child page 3 (key 7). -/
def idxStoreEx : Nat → Option (Page Nat Nat) := fun n =>
  if n = 1 then some (.idxInterior [(2, 5, 50)] 3)
  else if n = 2 then some (.idxLeaf [(3, 30)])
  else if n = 3 then some (.idxLeaf [(7, 70)])
  else none

def idxDbEx : DB Nat Nat := ⟨fun n => if n = "t" then some 1 else none, idxStoreEx⟩

/-- A valid single-page index holding only the key 5. -/
def idxLeafStoreEx : Nat → Option (Page Nat Nat) := fun n =>
  if n = 1 then some (.idxLeaf [(5, 50)]) else none

def idxLeafDbEx : DB Nat Nat :=
  ⟨fun n => if n = "t" then some 1 else none, idxLeafStoreEx⟩

/-- A database whose catalog maps no names at all. -/
def emptyDbEx : DB Nat Nat := ⟨fun _ => none, fun _ => none⟩

/-! ### The claims -/

/-- Claim C1: for every rowid-keyed table B-tree, on a table-interior page the
scanner recurses into each cell's left child in stored order and finally into
the rightmost-child pointer carrying the same `num_key_cols`, `minkey` and
`maxkey`, so a scan yields every pair of the subtree.  The code violates this:
line 343 calls `self._scan_btree_range(hdr.right_ptr)` without the three other
required positional arguments, so Python raises `TypeError` there.  Evaluated
on this valid two-level table, the scan yields the left leaf's pair `(1, 10)`
and then raises `TypeError`; the rightmost child (page 3, holding `(2, 20)`)
is never visited. -/
theorem c1_table_interior_rightmost_child_typeError :
    validTbl tblStoreEx 2 1 .minS .maxS = true ∧
    tblStoreEx 3 = some (.tblLeaf [(2, 20)]) ∧
    scan_table tblDbEx 2 "t" 0 = .ok ([(1, 10)], some .typeError) :=
  ⟨by decide, rfl, rfl⟩

/-- Claim C2 counterexample: the table holds only the key 5, so no row with
key 7 exists and the bounded scan from 7 emits nothing; `lookup_row` then
fails with `StopIteration` raised by `next()` on the exhausted generator — a
different error from the not-found `ValueError` the claim asserts. -/
theorem c2_empty_scan_stopIteration_counterexample :
    validIdx idxLeafStoreEx 1 1 .minS .maxS = true ∧
    scanRange idxLeafStoreEx 1 1 1 (.key 7) .maxS = ([], none) ∧
    lookup_row idxLeafDbEx 1 "t" 7 1 = .error .stopIteration ∧
    Err.stopIteration ≠ Err.keyNotFound :=
  ⟨by decide, rfl, rfl, by decide⟩

/-- Claim C2 (amended): `lookup_row` fails with the not-found error when the
bounded scan emits a first pair whose key differs from the requested key; when
the bounded scan emits nothing at all and finishes cleanly, the call instead
fails with the iterator-exhaustion error (`StopIteration` from `next()`),
which is distinct from the not-found error. -/
theorem c2_lookup_row_miss_behavior (db : DB K V) (fuel root nkc : Nat)
    (name : String) (key : K) (hroot : db.roots name = some root) :
    (scanRange db.store fuel root nkc (.key key) .maxS = ([], none) →
      lookup_row db fuel name key nkc = .error .stopIteration) ∧
    (∀ k v t st,
      scanRange db.store fuel root nkc (.key key) .maxS = ((k, v) :: t, st) →
      k ≠ key → lookup_row db fuel name key nkc = .error .keyNotFound) := by
  constructor
  · intro hscan
    unfold lookup_row
    rw [hroot]
    dsimp only
    rw [hscan]
  · intro k v t st hscan hne
    unfold lookup_row
    rw [hroot]
    dsimp only
    rw [hscan]
    rcases st with _ | e <;> simp [hne]

theorem c2_lookup_row_miss_behavior_witness :
    lookup_row idxLeafDbEx 1 "t" 7 1 = .error .stopIteration ∧
    lookup_row idxLeafDbEx 1 "t" 4 1 = .error .keyNotFound :=
  ⟨(c2_lookup_row_miss_behavior idxLeafDbEx 1 1 1 "t" 7 rfl).1 rfl,
   (c2_lookup_row_miss_behavior idxLeafDbEx 1 1 1 "t" 4 rfl).2 5 50 [] none rfl
     (by decide)⟩

/-- Claim C3: for every valid index / WITHOUT-ROWID B-tree scanned with key
arity `N > 0`, every pair `(k, v)` yielded by a full `scan_table` round-trips:
`lookup_row` on `k` returns exactly `v`. -/
theorem c3_scan_lookup_roundtrip (db : DB K V) (fuel root nkc : Nat)
    (name : String) (items : List (K × V)) (st : Option Err) (k : K) (v : V)
    (hroot : db.roots name = some root) (hn : nkc ≠ 0)
    (hvalid : validIdx db.store fuel root .minS .maxS = true)
    (hscan : scan_table db fuel name nkc = .ok (items, st))
    (hmem : (k, v) ∈ items) :
    lookup_row db fuel name k nkc = .ok v := by
  unfold scan_table at hscan
  rw [hroot] at hscan
  dsimp only at hscan
  rw [scanIdx_eq_filter db.store nkc hn .minS .maxS fuel root .minS .maxS hvalid]
    at hscan
  have hfilter : (inorderIdx db.store fuel root).filter
      (fun c => windowB (BKey.minS : BKey K) .maxS c.1)
      = inorderIdx db.store fuel root :=
    List.filter_eq_self.mpr (fun p _ => windowB_minS_maxS p.1)
  rw [hfilter] at hscan
  injection hscan with hpair
  have hitems : items = inorderIdx db.store fuel root := by
    have h := congrArg Prod.fst hpair
    simpa using h.symm
  subst hitems
  have hsorted := (inorderIdx_props db.store fuel root .minS .maxS hvalid).2
  have hlook := scanIdx_eq_filter db.store nkc hn (.key k) .maxS fuel root
    .minS .maxS hvalid
  obtain ⟨t, ht⟩ := filter_from_key_head _ k v hsorted hmem
  unfold lookup_row
  rw [hroot]
  dsimp only
  rw [hlook, ht]
  simp

theorem c3_scan_lookup_roundtrip_witness :
    lookup_row idxDbEx 2 "t" 5 1 = .ok 50 :=
  c3_scan_lookup_roundtrip idxDbEx 2 1 1 "t" [(3, 30), (5, 50), (7, 70)] none 5 50
    rfl (by decide) (by decide) rfl (by decide)

/-- Claim C4: over a valid database file, a full `scan_table` yields its keys
(rowids for table trees, composite keys for index trees) in strictly ascending
order, hence without duplicates.  For table trees this covers the whole
yielded prefix (the scan may end in the rightmost-child `TypeError` of C1). -/
theorem c4_scan_keys_strictly_ascending (db : DB K V) (fuel root : Nat)
    (name : String) (hroot : db.roots name = some root) :
    (∀ items st, validTbl db.store fuel root .minS .maxS = true →
      scan_table db fuel name 0 = .ok (items, st) →
      items.Pairwise (fun p q => p.1 < q.1) ∧ (items.map Prod.fst).Nodup) ∧
    (∀ nkc items st, nkc ≠ 0 → validIdx db.store fuel root .minS .maxS = true →
      scan_table db fuel name nkc = .ok (items, st) →
      items.Pairwise (fun p q => p.1 < q.1) ∧ (items.map Prod.fst).Nodup) := by
  constructor
  · intro items st hvalid hscan
    unfold scan_table at hscan
    rw [hroot] at hscan
    dsimp only at hscan
    injection hscan with hpair
    have hitems : items = (scanRange db.store fuel root 0 .minS .maxS).1 := by
      rw [hpair]
    have hsorted :=
      (scanTbl_props db.store .minS .maxS fuel root .minS .maxS hvalid).2
    rw [hitems]
    exact ⟨hsorted, hsorted.map Prod.fst (fun a b hab => ne_of_lt hab)⟩
  · intro nkc items st hn hvalid hscan
    unfold scan_table at hscan
    rw [hroot] at hscan
    dsimp only at hscan
    rw [scanIdx_eq_filter db.store nkc hn .minS .maxS fuel root .minS .maxS hvalid]
      at hscan
    injection hscan with hpair
    have hitems : items = (inorderIdx db.store fuel root).filter
        (fun c => windowB .minS .maxS c.1) := by
      have h := congrArg Prod.fst hpair
      simpa using h.symm
    have hsorted := ((inorderIdx_props db.store fuel root .minS .maxS hvalid).2).filter
      (fun c => windowB .minS .maxS c.1)
    rw [hitems]
    exact ⟨hsorted, hsorted.map Prod.fst (fun a b hab => ne_of_lt hab)⟩

theorem c4_scan_keys_strictly_ascending_witness :
    (([(1, 10)] : List (Nat × Nat)).Pairwise (fun p q => p.1 < q.1) ∧
      (([(1, 10)] : List (Nat × Nat)).map Prod.fst).Nodup) ∧
    (([(3, 30), (5, 50), (7, 70)] : List (Nat × Nat)).Pairwise
        (fun p q => p.1 < q.1) ∧
      (([(3, 30), (5, 50), (7, 70)] : List (Nat × Nat)).map Prod.fst).Nodup) :=
  ⟨(c4_scan_keys_strictly_ascending tblDbEx 2 1 "t" rfl).1 [(1, 10)]
      (some .typeError) (by decide) rfl,
   (c4_scan_keys_strictly_ascending idxDbEx 2 1 "t" rfl).2 1
      [(3, 30), (5, 50), (7, 70)] none (by decide) (by decide) rfl⟩

/-- Claim C5: on an index-interior page the scanner processes cells in stored
order exactly by the rule of the claim — skip the cell when `key < minkey`;
recurse into its left child first when `key > minkey`; terminate the whole
traversal of the subtree without emitting when `key >= maxkey`; otherwise
emit `(key, value)`; after all cells, recurse into the rightmost-child
pointer with the same bounds (`claimIdxInteriorScan` transcribes that rule
from the claim's wording). -/
theorem c5_index_interior_cell_rule (store : Nat → Option (Page K V))
    (fuel idx nkc : Nat) (cells : List (Nat × K × V)) (rptr : Nat)
    (mn mx : BKey K) (hn : nkc ≠ 0)
    (hs : store idx = some (.idxInterior cells rptr)) :
    scanRange store (fuel + 1) idx nkc mn mx
      = claimIdxInteriorScan (fun lc => scanRange store fuel lc nkc mn mx) mn mx
          (scanRange store fuel rptr nkc mn mx) cells := by
  rw [scanRange_idxInterior hn hs]
  exact scanIdxCellsF_eq_claim _ mn mx _ cells

theorem c5_index_interior_cell_rule_witness :
    scanRange idxStoreEx 2 1 1 .minS .maxS
      = claimIdxInteriorScan (fun lc => scanRange idxStoreEx 1 lc 1 .minS .maxS)
          .minS .maxS (scanRange idxStoreEx 1 3 1 .minS .maxS) [(2, 5, 50)] :=
  c5_index_interior_cell_rule idxStoreEx 1 1 1 [(2, 5, 50)] 3 .minS .maxS
    (by decide) rfl

/-- Claim C9: the sentinels and real keys form a total order under the Python
comparison dispatch: `MIN_SENTINEL` is strictly below everything that is not a
`MinSentinel` and equal exactly to `MinSentinel`s, dually for `MAX_SENTINEL`,
and on every pair of bounds the comparison operators and their reflected forms
are mutually consistent. -/
theorem c9_sentinel_total_order :
    (∀ b : BKey K, blt .minS b = !isMin b) ∧
    (∀ b : BKey K, beq .minS b = isMin b) ∧
    (∀ b : BKey K, bgt .maxS b = !isMax b) ∧
    (∀ b : BKey K, beq .maxS b = isMax b) ∧
    (∀ a b : BKey K, blt a b = bgt b a) ∧
    (∀ a b : BKey K, ble a b = bge b a) ∧
    (∀ a b : BKey K, ble a b = !bgt a b) ∧
    (∀ a b : BKey K, bge a b = !blt a b) ∧
    (∀ a b : BKey K, beq a b = beq b a) ∧
    (∀ a b : BKey K, beq a b = (ble a b && bge a b)) := by
  refine ⟨fun b => by cases b <;> rfl, fun b => by cases b <;> rfl,
    fun b => by cases b <;> rfl, fun b => by cases b <;> rfl,
    ?_, ?_, ?_, ?_, ?_, ?_⟩
  · intro a b; rw [blt_eq_bkBelow, bgt_eq_bkBelow]
  · intro a b; rw [ble_eq_not_bkBelow, bge_eq_not_bkBelow]
  · intro a b; rw [ble_eq_not_bkBelow, bgt_eq_bkBelow]
  · intro a b; rw [bge_eq_not_bkBelow, blt_eq_bkBelow]
  · intro a b
    rw [beq_eq_decide_eq, beq_eq_decide_eq]
    exact decide_eq_decide.mpr eq_comm
  · intro a b
    rw [beq_eq_decide_eq, ble_eq_not_bkBelow, bge_eq_not_bkBelow]
    by_cases hab : a = b
    · subst hab; simp [bkBelow_irrefl]
    · rcases h1 : bkBelow a b with _ | _
      · rcases h2 : bkBelow b a with _ | _
        · exact absurd (bkBelow_total_eq h1 h2) hab
        · simp [hab]
      · simp [hab]

/-- Claim C10: a table name absent from the catalog mapping makes both
`scan_table` and `lookup_row` fail at once with `KeyError` from the
`table_roots[name]` dictionary lookup — for every page store and every fuel,
so before any page is read — and that error is none of the spec's
`FormatError`, `IOError` or `NotFoundError` classes. -/
theorem c10_unknown_table_keyError (db : DB K V) (fuel nkc : Nat)
    (name : String) (key : K) (habs : db.roots name = none) :
    scan_table db fuel name nkc = .error .keyError ∧
    lookup_row db fuel name key nkc = .error .keyError ∧
    Err.keyError.formatClass = false ∧
    Err.keyError.ioClass = false ∧
    Err.keyError.notFoundClass = false := by
  unfold scan_table lookup_row
  rw [habs]
  exact ⟨rfl, rfl, rfl, rfl, rfl⟩

theorem c10_unknown_table_keyError_witness :
    scan_table emptyDbEx 1 "missing" 0 = .error .keyError ∧
    lookup_row emptyDbEx 1 "missing" 0 0 = .error .keyError :=
  ⟨(c10_unknown_table_keyError emptyDbEx 1 0 "missing" 0 rfl).1,
   (c10_unknown_table_keyError emptyDbEx 1 0 "missing" 0 rfl).2.1⟩

/-- Claim C6: for a payload of declared length `P` on a page of usable size
`U` (at least 257, since `page_size ≥ 512` and at most 255 reserved bytes):
with the thresholds `X` and `M` of `_parse_payload`, `P ≤ X` keeps the whole
payload local with no overflow page; otherwise the local bytes are
`K = M + ((P - M) mod (U - 4))` when `K ≤ X` and `M` otherwise; the local
chunk plus the overflow chunks (each at most `U - 4` bytes) always sum to `P`
exactly; a payload of exactly `X` bytes stays fully local and `X + 1` bytes
trigger exactly one overflow page. -/
theorem c6_payload_locality (U P : Nat) (pt : BTreePageType) (hU : 257 ≤ U) :
    (P ≤ payloadX U pt → payloadPlan U P pt = (P, [])) ∧
    (payloadX U pt < P → (payloadPlan U P pt).1 =
      if payloadM U + (P - payloadM U) % (U - 4) ≤ payloadX U pt
      then payloadM U + (P - payloadM U) % (U - 4) else payloadM U) ∧
    ((payloadPlan U P pt).1 + ((payloadPlan U P pt).2).sum = P) ∧
    (∀ c ∈ (payloadPlan U P pt).2, c ≤ U - 4) ∧
    (P = payloadX U pt → (payloadPlan U P pt).2 = []) ∧
    (P = payloadX U pt + 1 → ((payloadPlan U P pt).2).length = 1) := by
  have hMX : payloadM U ≤ payloadX U pt := by
    rcases pt <;> simp [payloadM, payloadX] <;> omega
  by_cases hple : P ≤ payloadX U pt
  · have hplan : payloadPlan U P pt = (P, []) := by
      simp [payloadPlan, hple]
    exact ⟨fun _ => hplan, fun hlt => absurd hple (by omega),
      by rw [hplan]; simp, by rw [hplan]; simp,
      fun _ => by rw [hplan], fun hP1 => absurd hple (by omega)⟩
  · have hXP : payloadX U pt < P := by omega
    have h4 : 1 ≤ U - 4 := by omega
    have hModLe : (P - payloadM U) % (U - 4) ≤ P - payloadM U := Nat.mod_le _ _
    by_cases hKX : payloadM U + (P - payloadM U) % (U - 4) ≤ payloadX U pt
    · have hplan : payloadPlan U P pt =
          (payloadM U + (P - payloadM U) % (U - 4),
           overflowChunks (U - 4)
             (P - (payloadM U + (P - payloadM U) % (U - 4)))) := by
        simp [payloadPlan, hple, hKX]
      refine ⟨fun hc => absurd hc hple, fun _ => by rw [hplan]; simp [hKX], ?_, ?_,
        fun hPX => absurd (le_of_eq hPX) hple, fun hP1 => ?_⟩
      · rw [hplan]
        dsimp only
        rw [overflowChunks, overflowChunksAux_sum (U - 4) h4 _ _ (le_refl _)]
        omega
      · rw [hplan]
        dsimp only
        intro c hc
        exact overflowChunksAux_le (U - 4) _ _ c hc
      · -- at P = X + 1 the modulus is total, so K = P > X, contradicting hKX
        exfalso
        have hsub : P - payloadM U < U - 4 := by
          rcases pt <;> simp [payloadX, payloadM] at hP1 ⊢ <;> omega
        have hKP : payloadM U + (P - payloadM U) % (U - 4) = P := by
          rw [Nat.mod_eq_of_lt hsub]
          omega
        omega
    · have hplan : payloadPlan U P pt =
          (payloadM U, overflowChunks (U - 4) (P - payloadM U)) := by
        simp [payloadPlan, hple, hKX]
      refine ⟨fun hc => absurd hc hple, fun _ => by rw [hplan]; simp [hKX], ?_, ?_,
        fun hPX => absurd (le_of_eq hPX) hple, fun hP1 => ?_⟩
      · rw [hplan]
        dsimp only
        rw [overflowChunks, overflowChunksAux_sum (U - 4) h4 _ _ (le_refl _)]
        omega
      · rw [hplan]
        dsimp only
        intro c hc
        exact overflowChunksAux_le (U - 4) _ _ c hc
      · have hsub : P - payloadM U < U - 4 := by
          rcases pt <;> simp [payloadX, payloadM] at hP1 ⊢ <;> omega
        have hpos : 1 ≤ P - payloadM U := by omega
        rw [hplan]
        dsimp only
        rw [overflowChunks_single (U - 4) (P - payloadM U) hpos (by omega)]
        rfl

theorem c6_payload_locality_witness :
    payloadPlan 1024 989 .tblLeaf = (989, []) ∧
    ((payloadPlan 1024 990 .tblLeaf).2).length = 1 ∧
    (payloadPlan 1024 990 .tblLeaf).1 + ((payloadPlan 1024 990 .tblLeaf).2).sum
      = 990 :=
  ⟨(c6_payload_locality 1024 989 .tblLeaf (by decide)).1 (by decide),
   (c6_payload_locality 1024 990 .tblLeaf (by decide)).2.2.2.2.2 (by decide),
   (c6_payload_locality 1024 990 .tblLeaf (by decide)).2.2.1⟩

/-- The claim's width table for serial-type codes 1 through 6. -/
def serialWidth : Nat → Nat
  | 1 => 1
  | 2 => 2
  | 3 => 3
  | 4 => 4
  | 5 => 6
  | 6 => 8
  | _ => 0

/-- Claim C7: for each serial-type code the record decoder yields NULL for 0;
a signed big-endian integer of width 1, 2, 3, 4, 6 or 8 bytes for codes 1-6;
an 8-byte big-endian IEEE-754 double (kept as its bit pattern) for 7; the
constants 0 and 1 for codes 8 and 9; a fatal error for the reserved codes 10
and 11; and for codes ≥ 12 a value of `(code - 12) / 2` bytes — text in the
file's configured encoding when the code is odd, raw bytes when even. -/
theorem c7_serial_type_decoding (enc : TextEncoding) (t : Nat) (s : List Nat) :
    (t = 0 → serialValue enc t s = .ok (.null, s)) ∧
    (1 ≤ t → t ≤ 6 → serialValue enc t s =
      if s.length < serialWidth t then .error .intUnderread
      else .ok (.int (beSintList (s.take (serialWidth t))),
        s.drop (serialWidth t))) ∧
    (t = 7 → serialValue enc t s =
      if s.length < 8 then .error .structError
      else .ok (.real (beUintList (s.take 8)), s.drop 8)) ∧
    (t = 8 → serialValue enc t s = .ok (.int 0, s)) ∧
    (t = 9 → serialValue enc t s = .ok (.int 1, s)) ∧
    (t = 10 ∨ t = 11 → serialValue enc t s = .error .unexpectedSerial) ∧
    (12 ≤ t → t % 2 = 1 → serialValue enc t s =
      if s.length < (t - 12) / 2 then .error .blobUnderread
      else .ok (.text enc (s.take ((t - 12) / 2)), s.drop ((t - 12) / 2))) ∧
    (12 ≤ t → t % 2 = 0 → serialValue enc t s =
      if s.length < (t - 12) / 2 then .error .blobUnderread
      else .ok (.blob (s.take ((t - 12) / 2)), s.drop ((t - 12) / 2))) := by
  refine ⟨?_, ?_, ?_, ?_, ?_, ?_, ?_, ?_⟩
  · rintro rfl; rfl
  · intro h1 h6
    have hw : TYPE_LENGTHS.getD t 0 = serialWidth t := by
      interval_cases t <;> rfl
    rw [serialValue, if_neg (by omega), if_pos (by omega), hw, parse_be_int]
    by_cases hs : s.length < serialWidth t <;> simp [hs]
  · rintro rfl; rfl
  · rintro rfl; rfl
  · rintro rfl; rfl
  · rintro (rfl | rfl) <;> rfl
  · intro h12 hodd
    rw [serialValue, if_neg (by omega), if_neg (by omega), if_neg (by omega),
      if_neg (by omega), if_neg (by omega), if_neg (by omega)]
    have hst : (t - 12) % 2 = 1 := by omega
    by_cases hl : s.length < (t - 12) / 2 <;> simp [hl, hst]
  · intro h12 heven
    rw [serialValue, if_neg (by omega), if_neg (by omega), if_neg (by omega),
      if_neg (by omega), if_neg (by omega), if_neg (by omega)]
    have hst : (t - 12) % 2 = 0 := by omega
    by_cases hl : s.length < (t - 12) / 2 <;> simp [hl, hst]

theorem c7_serial_type_decoding_witness :
    serialValue .utf8 1 [255] = .ok (.int (-1), []) ∧
    serialValue .utf8 15 [104, 105] = .ok (.text .utf8 [104], [105]) ∧
    serialValue .utf8 14 [104, 105] = .ok (.blob [104], [105]) := by
  refine ⟨?_, ?_, ?_⟩
  · rw [(c7_serial_type_decoding .utf8 1 [255]).2.1 (by decide) (by decide)]
    rfl
  · rw [(c7_serial_type_decoding .utf8 15 [104, 105]).2.2.2.2.2.2.1
      (by decide) (by decide)]
    rfl
  · rw [(c7_serial_type_decoding .utf8 14 [104, 105]).2.2.2.2.2.2.2
      (by decide) (by decide)]
    rfl

/-- Claim C8: the 2-byte page-size field is accepted exactly when it is a
power of two in `[512, 32768]` or the raw sentinel value 1, which is
normalized to 65536; in particular raw 513 is rejected with the format error,
raw 1 yields page size 65536, and page size 65536 round-trips through its
on-disk encoding (raw value 1). -/
theorem c8_page_size_validation (u : Nat) (rest : List Nat) (hu : u < 65536) :
    (u = 1 → parsePageSize (be2Bytes u ++ rest) = .ok (65536, rest)) ∧
    ((∃ k, u = 2 ^ k) → 512 ≤ u → u ≤ 32768 →
      parsePageSize (be2Bytes u ++ rest) = .ok (u, rest)) ∧
    (u ≠ 1 → (¬ ∃ k, u = 2 ^ k) ∨ u < 512 ∨ 32768 < u →
      parsePageSize (be2Bytes u ++ rest) = .error .invalidPageSize) ∧
    (∀ n s2, parsePageSize (be2Bytes u ++ rest) = .ok (n, s2) →
      s2 = rest ∧ ((u = 1 ∧ n = 65536) ∨
        (512 ≤ u ∧ u ≤ 32768 ∧ (∃ k, u = 2 ^ k) ∧ n = u))) := by
  have hread : parse_be_uint 2 (be2Bytes u ++ rest) = .ok (u, rest) := by
    rw [parse_be_uint, if_neg (by
      simp only [be2Bytes, List.length_append, List.length_cons, List.length_nil]
      omega)]
    simp [be2Bytes, beUintList]
    omega
  refine ⟨?_, ?_, ?_, ?_⟩
  · rintro rfl
    rw [parsePageSize, hread]
    rfl
  · rintro ⟨k, rfl⟩ h512 h32768
    rw [parsePageSize, hread]
    dsimp only
    rw [if_neg (by omega), if_neg (by
      simp [bit_count_two_pow k]
      omega)]
  · rintro hne (hnp | hlt | hgt)
    · rw [parsePageSize, hread]
      dsimp only
      rw [if_neg hne, if_pos (by
        have hbc : bit_count u ≠ 1 := fun hc => hnp (bit_count_eq_one u hc)
        simp [hbc])]
    · rw [parsePageSize, hread]
      dsimp only
      rw [if_neg hne, if_pos (by simp [hlt])]
    · rw [parsePageSize, hread]
      dsimp only
      rw [if_neg hne, if_pos (by simp [hgt])]
  · intro n s2 h
    rw [parsePageSize, hread] at h
    dsimp only at h
    by_cases h1 : u = 1
    · subst h1
      rw [if_pos rfl] at h
      injection h with hp
      injection hp with hn hs2
      subst hn; subst hs2
      exact ⟨rfl, .inl ⟨rfl, rfl⟩⟩
    · rw [if_neg h1] at h
      split at h
      · exact absurd h (by simp)
      · rename_i hcond
        injection h with hp
        injection hp with hn hs2
        subst hn; subst hs2
        have hc1 : ¬ u < 512 := fun hx => hcond (by simp [hx])
        have hc2 : ¬ 32768 < u := fun hx => hcond (by simp [hx])
        have hc3 : bit_count u = 1 := by
          by_contra hx
          exact hcond (by simp [hx])
        exact ⟨rfl, .inr ⟨by omega, by omega, bit_count_eq_one u hc3, rfl⟩⟩

theorem c8_page_size_validation_witness :
    parsePageSize (be2Bytes 1 ++ []) = .ok (65536, []) ∧
    parsePageSize (be2Bytes 1024 ++ []) = .ok (1024, []) ∧
    parsePageSize (be2Bytes 513 ++ []) = .error .invalidPageSize := by
  refine ⟨(c8_page_size_validation 1 [] (by decide)).1 rfl,
    (c8_page_size_validation 1024 [] (by decide)).2.1 ⟨10, rfl⟩ (by decide)
      (by decide),
    (c8_page_size_validation 513 [] (by decide)).2.2.1 (by decide) (.inl ?_)⟩
  rintro ⟨k, hk⟩
  have hk10 : k < 10 := by
    by_contra hbig
    push_neg at hbig
    have h2 : (2 : Nat) ^ 10 ≤ 2 ^ k := Nat.pow_le_pow_right (by norm_num) hbig
    omega
  interval_cases k <;> norm_num at hk

end Sq
